import Mathlib

/-!
Verification of the quantum-key-distribution demo repository
(quantumkey.py, api_server_short.py, keydes.py, quantum_e91_demo.py).

Bits (Python ints 0/1) are modelled as `Bool`; byte values as `ℕ` below 256;
Python floats arising as quotients of small integers are modelled as `ℚ`
(every threshold constant in the source — 0.25, 0.359375, 0.5 — is an exact
dyadic rational, so the float comparisons in the source coincide with the
rational ones on the values compared).  Fallible Python code (raises) is
modelled with `Option`, `none` standing for an escaped exception.  External
randomness (`random.randint`, `np.random.choice`, measurement outcomes of the
Aer simulator) is passed in explicitly as oracle arguments.
-/

/-- Number of agreeing positions between two bit lists:
`sum(a == b for a, b in zip(k1, k2))` in the source. -/
def countMatches (k1 k2 : List Bool) : ℕ :=
  (k1.zip k2).countP (fun p => p.1 == p.2)

/-- `calculate_qber` from api_server_short.py (lines 146-150): returns 0.0 on
empty or length-mismatched inputs, otherwise the fraction of disagreeing
positions. -/
def calculate_qber (key1 key2 : List Bool) : ℚ :=
  if key1 = [] ∨ key2 = [] ∨ key1.length ≠ key2.length then 0
  else ((key1.zip key2).countP (fun p => p.1 != p.2) : ℚ) / (key1.length : ℚ)

/-- `verify_bell_inequality` from quantumkey.py (lines 96-120).  Bits and
bases are kept as naturals exactly as in the source (`int` values);
`(-1)**(a ^ b)` is the integer power of the xor. -/
def verify_bell_inequality (alice_bits bob_bits alice_bases bob_bases : List ℕ) : Bool :=
  let trials := (alice_bits.zip bob_bits).zip (alice_bases.zip bob_bases)
  let qual := trials.filter
    (fun t => [(0, 0), (0, 1), (1, 0), (1, 1)].contains (t.2.1, t.2.2))
  let correlations : ℤ := (qual.map (fun t => (-1 : ℤ) ^ (t.1.1 ^^^ t.1.2))).sum
  let count := qual.length
  if count = 0 then false
  else decide ((5 : ℚ) / 2 < |2 * (correlations : ℚ) / (count : ℚ)|)

/-- Default sample size of `estimate_error_rate`
(quantumkey.py line 136): `min(len(bits1) // 4, 100)`. -/
def default_sample_size (bits1 : List Bool) : ℕ :=
  min (bits1.length / 4) 100

/-- `estimate_error_rate` from quantumkey.py (lines 122-151).  The random
draw of `np.random.choice(len(bits1), sample_size, replace=False)` is passed
in as `idx` (a sorted duplicate-free list of indices below `len bits1` of
length `sample_size`; theorems state this contract where they need it).
`none` models an escaped exception: `ValueError` when the draw is impossible
(`sample_size > len(bits1)` without replacement), `IndexError` when a sampled
index reaches past `bits2`, and `ZeroDivisionError` when the effective sample
size is 0 (`errors / sample_size`).  Python's `if not sample_size` treats
both `None` and `0` as unset, hence the two defaulting cases. -/
def estimate_error_rate (bits1 bits2 : List Bool) (sample_size? : Option ℕ)
    (idx : List ℕ) : Option (ℚ × List Bool × List Bool) :=
  let n := match sample_size? with
    | none => default_sample_size bits1
    | some k => if k = 0 then default_sample_size bits1 else k
  if bits1.length < n then none
  else if idx.any (fun i => bits2.length ≤ i) then none
  else if n = 0 then none
  else
    let errors := idx.countP (fun i => bits1.getD i false != bits2.getD i false)
    let keep := (List.range bits1.length).filter (fun i => ¬ idx.contains i)
    some ((errors : ℚ) / (n : ℚ),
      keep.map (fun i => bits1.getD i false),
      keep.map (fun i => bits2.getD i false))

/-- Severity buckets of the decision procedure (spec §4.3). -/
inductive Verdict
  | safe
  | significant
  | critical
  | severe
  deriving DecidableEq, Repr

/-- The error-rate classification of `main` in quantumkey.py (lines 202-214):
`r <= 0.25` safe, `r <= 0.359375` significant interference, `r <= 0.5`
critical, otherwise severe.  The source constants 0.25, 0.359375 and 0.5 are
exactly 16/64, 23/64 and 32/64. -/
def classify_rate (r : ℚ) : Verdict :=
  if r ≤ 16 / 64 then .safe
  else if r ≤ 23 / 64 then .significant
  else if r ≤ 32 / 64 then .critical
  else .severe

/-- The match-count classification of the quantum branch of `eve_attack` in
api_server_short.py (lines 320-359): `matches <= 16` safe
(`detected_safe`), `matches < 24` significant, `matches < 32` critical,
otherwise severe (the last three all answer `detected_reinit`). -/
def classify_matches (m : ℕ) : Verdict :=
  if m ≤ 16 then .safe
  else if m < 24 then .significant
  else if m < 32 then .critical
  else .severe

/-- Splits a list into consecutive chunks of size `k` (last chunk possibly
shorter), as `range(0, len, k)` slicing does in Python.  The `0` case is a
guard making the recursion well founded; all uses have `k > 0`. -/
def listChunks {α : Type} : ℕ → List α → List (List α)
  | _, [] => []
  | 0, l => [l]
  | k + 1, x :: rest => ((x :: rest).take (k + 1)) :: listChunks (k + 1) ((x :: rest).drop (k + 1))
termination_by _ l => l.length
decreasing_by simp [List.length_drop]; omega

/-- 32-bit right rotation on a machine word (value below 2^32). -/
def rotr32 (n x : ℕ) : ℕ :=
  ((x >>> n) ||| (x <<< (32 - n))) % 2 ^ 32

/-- Modelled from the spec: the "fixed cryptographic hash function" applied
by `privacy_amplification` is `hashlib.sha256` (Python standard library,
external to the repository).  The FIPS 180-4 SHA-256 round constants. -/
def shaK : List ℕ :=
  [1116352408, 1899447441, 3049323471, 3921009573, 961987163,
   1508970993, 2453635748, 2870763221, 3624381080, 310598401,
   607225278, 1426881987, 1925078388, 2162078206, 2614888103,
   3248222580, 3835390401, 4022224774, 264347078, 604807628,
   770255983, 1249150122, 1555081692, 1996064986, 2554220882,
   2821834349, 2952996808, 3210313671, 3336571891, 3584528711,
   113926993, 338241895, 666307205, 773529912, 1294757372,
   1396182291, 1695183700, 1986661051, 2177026350, 2456956037,
   2730485921, 2820302411, 3259730800, 3345764771, 3516065817,
   3600352804, 4094571909, 275423344, 430227734, 506948616,
   659060556, 883997877, 958139571, 1322822218, 1537002063,
   1747873779, 1955562222, 2024104815, 2227730452, 2361852424,
   2428436474, 2756734187, 3204031479, 3329325298]

/-- SHA-256 working state (the eight 32-bit chaining words). -/
structure SHAState where
  a : ℕ
  b : ℕ
  c : ℕ
  d : ℕ
  e : ℕ
  f : ℕ
  g : ℕ
  hh : ℕ

/-- SHA-256 initial hash value. -/
def shaInit : SHAState :=
  ⟨1779033703, 3144134277, 1013904242, 2773480762,
   1359893119, 2600822924, 528734635, 1541459225⟩

/-- Message-schedule word `t` of a SHA-256 block whose first sixteen words
are `ws`. -/
def shaW (ws : List ℕ) (t : ℕ) : ℕ :=
  if ht : t < 16 then ws.getD t 0
  else
    (shaW ws (t - 16)
      + (rotr32 7 (shaW ws (t - 15)) ^^^ rotr32 18 (shaW ws (t - 15)) ^^^ (shaW ws (t - 15) >>> 3))
      + shaW ws (t - 7)
      + (rotr32 17 (shaW ws (t - 2)) ^^^ rotr32 19 (shaW ws (t - 2)) ^^^ (shaW ws (t - 2) >>> 10)))
      % 2 ^ 32
termination_by t
decreasing_by all_goals omega

/-- One SHA-256 compression round. -/
def shaRound (ws : List ℕ) (st : SHAState) (t : ℕ) : SHAState :=
  let s1 := rotr32 6 st.e ^^^ rotr32 11 st.e ^^^ rotr32 25 st.e
  let ch := (st.e &&& st.f) ^^^ ((st.e ^^^ (2 ^ 32 - 1)) &&& st.g)
  let temp1 := (st.hh + s1 + ch + shaK.getD t 0 + shaW ws t) % 2 ^ 32
  let s0 := rotr32 2 st.a ^^^ rotr32 13 st.a ^^^ rotr32 22 st.a
  let maj := (st.a &&& st.b) ^^^ (st.a &&& st.c) ^^^ (st.b &&& st.c)
  let temp2 := (s0 + maj) % 2 ^ 32
  ⟨(temp1 + temp2) % 2 ^ 32, st.a, st.b, st.c, (st.d + temp1) % 2 ^ 32, st.e, st.f, st.g⟩

/-- The sixteen big-endian 32-bit words of one 64-byte SHA-256 block. -/
def shaBlockWords (block : List ℕ) : List ℕ :=
  (List.range 16).map (fun i =>
    block.getD (4 * i) 0 * 2 ^ 24 + block.getD (4 * i + 1) 0 * 2 ^ 16
      + block.getD (4 * i + 2) 0 * 2 ^ 8 + block.getD (4 * i + 3) 0)

/-- SHA-256 compression of one 64-byte block into the running hash. -/
def shaCompress (hs : SHAState) (block : List ℕ) : SHAState :=
  let ws := shaBlockWords block
  let st := (List.range 64).foldl (shaRound ws) hs
  ⟨(hs.a + st.a) % 2 ^ 32, (hs.b + st.b) % 2 ^ 32, (hs.c + st.c) % 2 ^ 32,
   (hs.d + st.d) % 2 ^ 32, (hs.e + st.e) % 2 ^ 32, (hs.f + st.f) % 2 ^ 32,
   (hs.g + st.g) % 2 ^ 32, (hs.hh + st.hh) % 2 ^ 32⟩

/-- SHA-256 padding: append 0x80, zero bytes up to 56 mod 64, then the
bit length as eight big-endian bytes. -/
def shaPad (msg : List ℕ) : List ℕ :=
  let bl := 8 * msg.length
  let z := (64 + 56 - (msg.length + 1) % 64) % 64
  msg ++ [128] ++ List.replicate z 0 ++
    [bl / 2 ^ 56 % 256, bl / 2 ^ 48 % 256, bl / 2 ^ 40 % 256, bl / 2 ^ 32 % 256,
     bl / 2 ^ 24 % 256, bl / 2 ^ 16 % 256, bl / 2 ^ 8 % 256, bl % 256]

/-- The four big-endian bytes of a 32-bit word. -/
def wordBytes (w : ℕ) : List ℕ :=
  [w / 2 ^ 24 % 256, w / 2 ^ 16 % 256, w / 2 ^ 8 % 256, w % 256]

/-- Modelled from the spec: `hashlib.sha256(...).digest()` (external Python
standard library), transcribed from FIPS 180-4.  Input and output are byte
lists; the digest always has 32 bytes. -/
def sha256 (msg : List ℕ) : List ℕ :=
  let hs := (listChunks 64 (shaPad msg)).foldl shaCompress shaInit
  wordBytes hs.a ++ wordBytes hs.b ++ wordBytes hs.c ++ wordBytes hs.d ++
    wordBytes hs.e ++ wordBytes hs.f ++ wordBytes hs.g ++ wordBytes hs.hh

theorem sha256_length (msg : List ℕ) : (sha256 msg).length = 32 := by
  simp [sha256, wordBytes]

/-- Little-endian value of a bit list: `sum(bit << i for i, bit in
enumerate(l))`. -/
def bitsValueLE : List Bool → ℕ
  | [] => 0
  | b :: rest => (if b then 1 else 0) + 2 * bitsValueLE rest

/-- Byte value of one 8-bit group in `privacy_amplification`
(quantumkey.py line 161): `sum(bit << i for i, bit in
enumerate(group[::-1]))`, i.e. the group read most-significant-bit first
(a short trailing group contributes its big-endian value as given). -/
def pa_byte (group : List Bool) : ℕ :=
  bitsValueLE group.reverse

/-- The eight bits of `format(byte, '08b')` for a byte value below 256,
most significant first (quantumkey.py line 170; digest bytes are always
below 256). -/
def byteBits (b : ℕ) : List Bool :=
  [decide (b / 128 % 2 = 1), decide (b / 64 % 2 = 1), decide (b / 32 % 2 = 1),
   decide (b / 16 % 2 = 1), decide (b / 8 % 2 = 1), decide (b / 4 % 2 = 1),
   decide (b / 2 % 2 = 1), decide (b % 2 = 1)]

/-- `privacy_amplification` from quantumkey.py (lines 153-172): pack the
bits into bytes eight at a time, hash with SHA-256, expand the digest into
bits and truncate to `final_length`.  Python's `if not final_length` treats
both `None` and `0` as unset. -/
def privacy_amplification (key_bits : List Bool) (final_length? : Option ℕ) : List Bool :=
  let final_length := match final_length? with
    | none => max (key_bits.length / 2) 8
    | some k => if k = 0 then max (key_bits.length / 2) 8 else k
  let key_bytes := (listChunks 8 key_bits).map pa_byte
  let hashed := sha256 key_bytes
  let amplified := (hashed.map byteBits).flatten
  amplified.take final_length

theorem byteBits_length (b : ℕ) : (byteBits b).length = 8 := by
  simp [byteBits]

theorem join_map_byteBits_length (l : List ℕ) :
    ((l.map byteBits).flatten).length = 8 * l.length := by
  induction l with
  | nil => simp
  | cons x rest ih =>
      simp only [List.map_cons, List.flatten_cons, List.length_append, ih,
        byteBits_length, List.length_cons]
      ring

theorem privacy_amplification_length (key_bits : List Bool) (fl : ℕ) (hfl : fl ≠ 0) :
    (privacy_amplification key_bits (some fl)).length = min fl 256 := by
  simp only [privacy_amplification]
  rw [List.length_take, join_map_byteBits_length, sha256_length]
  simp [hfl]

/-- Bit packing shared by `QuantumDES._bits_to_bytes` (keydes.py 45-53) and
`OptimizedQuantumDES.__init__` (api_server_short.py 127-132): for each
`i in range(0, 64, 8)` fold the eight bits `bits[i+j]` as
`byte = (byte << 1) | bit`.  Callers guarantee at least 64 bits, so the
`getD` default is never consulted there. -/
def pack64 (bits : List Bool) : List ℕ :=
  (List.range 8).map (fun i =>
    (List.range 8).foldl
      (fun byte j => 2 * byte + (if bits.getD (8 * i + j) false then 1 else 0)) 0)

/-- Key derivation of `OptimizedQuantumDES.__init__` (api_server_short.py
121-132): `bits = key_bits + [0] * (64 - len(key_bits))` (no padding when
already 64 or longer), then pack the first 64 bits. -/
def optimized_des_key (key_bits : List Bool) : List ℕ :=
  pack64 (key_bits ++ List.replicate (64 - key_bits.length) false)

/-- `QuantumDES._bits_to_bytes` (keydes.py 40-53): raises `ValueError`
(modelled `none`) when fewer than 64 bits are supplied, otherwise packs the
first 64 bits. -/
def bits_to_bytes (bits : List Bool) : Option (List ℕ) :=
  if bits.length < 64 then none else some (pack64 bits)

/-- Follows the spec's words (§4.5 `derive_cipher_key`): the first 64 bits,
zero-padded on the right when fewer than 64 are supplied, packed into 8
bytes where byte `i` weights bit `8*i+j` by `2^(7-j)` (most significant bit
first). -/
def spec_derive_cipher_key (bits : List Bool) : List ℕ :=
  let padded := bits ++ List.replicate (64 - bits.length) false
  (List.range 8).map (fun i =>
    ∑ j ∈ Finset.range 8, (if padded.getD (8 * i + j) false then 2 ^ (7 - j) else 0))

/-- Modelled from the spec: PKCS#7 padding to the 8-byte DES block size
(`Crypto.Util.Padding.pad`, external pycryptodome; the spec calls for "a
standard reversible padding scheme"). -/
def pkcs7pad (data : List ℕ) : List ℕ :=
  let p := 8 - data.length % 8
  data ++ List.replicate p p

/-- Modelled from the spec: `Crypto.Util.Padding.unpad` (external
pycryptodome); `none` models the raised padding `ValueError` when the
trailing padding bytes are structurally invalid. -/
def pkcs7unpad (data : List ℕ) : Option (List ℕ) :=
  let p := data.getLastD 0
  if 1 ≤ p ∧ p ≤ 8 ∧ p ≤ data.length ∧
      data.drop (data.length - p) = List.replicate p p
  then some (data.take (data.length - p))
  else none

/-- Modelled from the spec: the standard base64 alphabet (`base64`, Python
standard library; the spec calls for "a textual (base64-style)
representation").  Character code at index `n < 64`. -/
def b64char (n : ℕ) : ℕ :=
  if n < 26 then 65 + n
  else if n < 52 then 97 + (n - 26)
  else if n < 62 then 48 + (n - 52)
  else if n = 62 then 43
  else 47

/-- Modelled from the spec: index of a base64 alphabet character. -/
def b64index (c : ℕ) : ℕ :=
  if 65 ≤ c ∧ c ≤ 90 then c - 65
  else if 97 ≤ c ∧ c ≤ 122 then 26 + (c - 97)
  else if 48 ≤ c ∧ c ≤ 57 then 52 + (c - 48)
  else if c = 43 then 62
  else 63

/-- Modelled from the spec: `base64.b64encode` over byte values (the
resulting transport string is its list of character codes; 61 is the pad
character). -/
def b64encode : List ℕ → List ℕ
  | a :: b :: c :: rest =>
      b64char (a / 4) :: b64char (a % 4 * 16 + b / 16) ::
        b64char (b % 16 * 4 + c / 64) :: b64char (c % 64) :: b64encode rest
  | [a, b] => [b64char (a / 4), b64char (a % 4 * 16 + b / 16), b64char (b % 16 * 4), 61]
  | [a] => [b64char (a / 4), b64char (a % 4 * 16), 61, 61]
  | [] => []

/-- Modelled from the spec: `base64.b64decode` on well-formed transport
strings. -/
def b64decode : List ℕ → List ℕ
  | c1 :: c2 :: c3 :: c4 :: rest =>
      if c4 = 61 then
        if c3 = 61 then [b64index c1 * 4 + b64index c2 / 16]
        else [b64index c1 * 4 + b64index c2 / 16,
              b64index c2 % 16 * 16 + b64index c3 / 4]
      else
        (b64index c1 * 4 + b64index c2 / 16) ::
          (b64index c2 % 16 * 16 + b64index c3 / 4) ::
          (b64index c3 % 4 * 64 + b64index c4) :: b64decode rest
  | _ => []

/-- ECB-mode application of a per-block function over consecutive 8-byte
blocks, as `DES.new(key, DES.MODE_ECB).encrypt` / `.decrypt` operate on a
block-aligned buffer (external pycryptodome DES). -/
def ecb (f : List ℕ → List ℕ) : List ℕ → List ℕ
  | [] => []
  | x :: rest => f ((x :: rest).take 8) ++ ecb f ((x :: rest).drop 8)
termination_by l => l.length
decreasing_by simp; omega

/-- Shared body of `QuantumDES.encrypt` (keydes.py 55-68) and
`OptimizedQuantumDES.encrypt` (api_server_short.py 134-138): pad the encoded
message, encrypt in ECB mode under the derived key, base64-encode.  `desE`
is the external DES block encryption under the already-derived key bytes;
the message string is modelled by its ASCII codes (for which `str.encode`
is the identity on byte values). -/
def des_encrypt (desE : List ℕ → List ℕ) (message : List ℕ) : List ℕ :=
  b64encode (ecb desE (pkcs7pad message))

/-- Shared body of `QuantumDES.decrypt` (keydes.py 70-83) and
`OptimizedQuantumDES.decrypt` (api_server_short.py 140-144): base64-decode,
decrypt in ECB mode, strip the padding (`none` models the raised padding
error). -/
def des_decrypt (desD : List ℕ → List ℕ) (encrypted : List ℕ) : Option (List ℕ) :=
  pkcs7unpad (ecb desD (b64decode encrypted))

/-- `QuantumDES` end-to-end encryption: key derivation may raise on a short
key. -/
def quantumDES_encrypt (desE : List ℕ → List ℕ → List ℕ) (key_bits : List Bool)
    (message : List ℕ) : Option (List ℕ) :=
  (bits_to_bytes key_bits).map (fun kb => des_encrypt (desE kb) message)

/-- `QuantumDES` end-to-end decryption. -/
def quantumDES_decrypt (desD : List ℕ → List ℕ → List ℕ) (key_bits : List Bool)
    (encrypted : List ℕ) : Option (List ℕ) :=
  (bits_to_bytes key_bits).bind (fun kb => des_decrypt (desD kb) encrypted)

/-- `OptimizedQuantumDES` end-to-end encryption (key derivation is total). -/
def optimizedQuantumDES_encrypt (desE : List ℕ → List ℕ → List ℕ)
    (key_bits : List Bool) (message : List ℕ) : List ℕ :=
  des_encrypt (desE (optimized_des_key key_bits)) message

/-- `OptimizedQuantumDES` end-to-end decryption. -/
def optimizedQuantumDES_decrypt (desD : List ℕ → List ℕ → List ℕ)
    (key_bits : List Bool) (encrypted : List ℕ) : Option (List ℕ) :=
  des_decrypt (desD (optimized_des_key key_bits)) encrypted

/-- `generate_quantum_key` (api_server_short.py 152-170): `length` loop
iterations, each appending one simulated measurement bit; the measurement
outcomes of the pooled Aer circuit are the oracle `mO`. -/
def generate_quantum_key (length : ℕ) (mO : ℕ → Bool) : List Bool :=
  (List.range length).map mO

/-- The `keys` sub-map of `ThreadSafeCache` (api_server_short.py 37-77):
role name → bit sequence or `None`.  The remaining cache fields (`circuits`,
`measurements`, `qber_history`) hold no bit-sequence keys and are never
touched by the modelled operations, so they are omitted. -/
structure Cache where
  classic : Option (List Bool)
  quantum : Option (List Bool)
  eve : Option (List Bool)
  deriving DecidableEq

/-- Fresh cache as built by `ThreadSafeCache.__init__`: every role
uninitialized. -/
def Cache.start : Cache := ⟨none, none, none⟩

/-- The two admissible `key_type` request values. -/
inductive KeyType
  | classic
  | quantum
  deriving DecidableEq

/-- `cache.get("keys", key_type)`. -/
def Cache.getKey (s : Cache) : KeyType → Option (List Bool)
  | .classic => s.classic
  | .quantum => s.quantum

/-- `init_keys` (api_server_short.py 172-205): generate a 64-bit classic key
(`[random.randint(0, 1) for _ in range(64)]`, oracle `cO`) and two quantum
keys in parallel, compute their QBER, commit all three to the cache, return
the response body ingredients. -/
def init_keys (s : Cache) (cO qO eO : ℕ → Bool) : Cache × ℚ :=
  let classic_key := (List.range 64).map cO
  let quantum_key := generate_quantum_key 64 qO
  let eve_bits := generate_quantum_key 64 eO
  let qber := calculate_qber quantum_key eve_bits
  ({ s with classic := some classic_key, quantum := some quantum_key,
            eve := some eve_bits }, qber)

/-- Response status tags of `eve_attack`. -/
inductive EveStatus
  | cracked
  | progress
  | detected_safe
  | detected_reinit
  deriving DecidableEq, Repr

/-- The modelled parts of an `eve_attack` response: status tag, the
displayed adversary key (first 16 bits), the regenerated quantum key when
present, and — for the quantum branch — which severity bucket the
`log_msg` text reports. -/
structure EveResp where
  status : EveStatus
  eve_key : List Bool
  new_quantum_key : Option (List Bool)
  verdict : Option Verdict

/-- The overwrite loop of the classic branch (api_server_short.py 288-291):
`for i in range(correct_bits): eve_attempt_key[bit_pos] = current_key[bit_pos]`
with the drawn positions passed in as `positions` (one entry per loop
iteration, each below 64; positions may repeat). -/
def overwriteBits (current attempt : List Bool) (positions : List ℕ) : List Bool :=
  positions.foldl (fun acc p => acc.set p (current.getD p false)) attempt

/-- `eve_attack` (api_server_short.py 264-359) for a valid `key_type`, with
the random draws passed in: `attemptO` supplies Eve's fresh 64-bit guess,
`positions` the drawn overwrite positions of the classic branch (the source
draws `correct_bits ∈ [32, 58]` of them, each in `[0, 63]`), and `mO` the
measurement oracle for a regenerated quantum key.  `none` models the 400
"Keys not initialized" response (`if not current_key or not eve_key`, which
is also taken for empty lists); the cache is unchanged there.  In the
classic branch the list stored by `cache.set("keys", "eve", ...)` is mutated
in place by the overwrite loop, so the committed adversary key is the
post-overwrite list (or the full true key on a successful crack). -/
def eve_attack (s : Cache) (kt : KeyType) (attemptO : ℕ → Bool)
    (positions : List ℕ) (mO : ℕ → Bool) : Option (EveResp × Cache) :=
  match s.getKey kt, s.eve with
  | some current_key, some eve_key =>
    if current_key = [] ∨ eve_key = [] then none
    else
      match kt with
      | .classic =>
        let eve_attempt := (List.range 64).map attemptO
        let overwritten := overwriteBits current_key eve_attempt positions
        let nMatch := countMatches current_key overwritten
        if 48 < nMatch then
          some (⟨.cracked, current_key.take 16, none, none⟩,
            { s with eve := some current_key })
        else
          some (⟨.progress, overwritten.take 16, none, none⟩,
            { s with eve := some overwritten })
      | .quantum =>
        let eve_attempt := (List.range 64).map attemptO
        let nMatch := countMatches current_key eve_attempt
        if nMatch ≤ 16 then
          some (⟨.detected_safe, eve_attempt.take 16, none, some .safe⟩,
            { s with eve := some eve_attempt })
        else
          let new_quantum_key := generate_quantum_key 64 mO
          some (⟨.detected_reinit, eve_attempt.take 16, some new_quantum_key,
              some (classify_matches nMatch)⟩,
            { s with eve := some eve_attempt, quantum := some new_quantum_key })
  | _, _ => none

/-- One public server operation with its randomness (spec §6).  `opEncrypt`
and `opDecrypt` construct a local `OptimizedQuantumDES` and never write the
cache, so they carry no payload relevant to the cache state. -/
inductive ServerOp where
  | opInit (cO qO eO : ℕ → Bool)
  | opEve (kt : KeyType) (attemptO : ℕ → Bool) (positions : List ℕ) (mO : ℕ → Bool)
  | opEncrypt
  | opDecrypt
  | opClear

/-- Effect of one public operation on the session cache (`clear` re-runs
`__init__`, resetting every role). -/
def serverStep (s : Cache) : ServerOp → Cache
  | .opInit cO qO eO => (init_keys s cO qO eO).1
  | .opEve kt attemptO positions mO =>
      match eve_attack s kt attemptO positions mO with
      | some (_, s2) => s2
      | none => s
  | .opEncrypt => s
  | .opDecrypt => s
  | .opClear => Cache.start

/-- The cache state after a sequence of public operations starting from the
fresh cache. -/
def serverRun (ops : List ServerOp) : Cache :=
  ops.foldl serverStep Cache.start

/-- The length invariant of spec §3: a role's key is absent or exactly
64 bits. -/
def KeyInvariant (s : Cache) : Prop :=
  (∀ k, s.classic = some k → k.length = 64) ∧
    (∀ k, s.quantum = some k → k.length = 64) ∧
    (∀ k, s.eve = some k → k.length = 64)

/-- The key-regeneration loop of `simulate_iot_cloud_communication`
(keydes.py 140-148) observed for `fuel` iterations: attempt `i` draws
`quantum_key_distribution(64)` whose agreed key is `keys i`; the loop exits
at the first attempt with at least 64 agreed bits and truncates it to 64
(`shared_key[:64]`).  `none` means the `while True` loop is still running
after `fuel` iterations — the source has no other exit. -/
def keyGenLoop (keys : ℕ → List Bool) (i : ℕ) : ℕ → Option (List Bool)
  | 0 => none
  | fuel + 1 =>
      if 64 ≤ (keys i).length then some ((keys i).take 64)
      else keyGenLoop keys (i + 1) fuel

theorem abs_listSum_le_length (l : List ℤ) (h : ∀ x ∈ l, |x| ≤ 1) :
    |l.sum| ≤ (l.length : ℤ) := by
  induction l with
  | nil => simp
  | cons x rest ih =>
      simp only [List.sum_cons, List.length_cons]
      calc |x + rest.sum| ≤ |x| + |rest.sum| := abs_add _ _
        _ ≤ 1 + rest.length := by
            have hx := h x (List.mem_cons_self x rest)
            have hr := ih (fun y hy => h y (List.mem_cons_of_mem x hy))
            omega
        _ = (rest.length : ℤ) + 1 := by ring
        _ = ((rest.length + 1 : ℕ) : ℤ) := by push_cast; ring

/-- The aggregate correlation magnitude is at most 2 whenever at least one
qualifying trial exists. -/
theorem bell_aggregate_le_two (l : List ((ℕ × ℕ) × ℕ × ℕ)) (hl : ¬ l.length = 0) :
    ¬ ((5 : ℚ) / 2 <
      |2 * (((l.map (fun t => (-1 : ℤ) ^ (t.1.1 ^^^ t.1.2))).sum : ℤ) : ℚ) / (l.length : ℚ)|) := by
  rw [not_lt]
  set c : ℤ := (l.map (fun t => (-1 : ℤ) ^ (t.1.1 ^^^ t.1.2))).sum with hcdef
  have habs : |c| ≤ (l.length : ℤ) := by
    have hmap := abs_listSum_le_length (l.map (fun t => (-1 : ℤ) ^ (t.1.1 ^^^ t.1.2)))
      (by
        intro x hx
        obtain ⟨t, _, rfl⟩ := List.mem_map.mp hx
        have : |(-1 : ℤ) ^ (t.1.1 ^^^ t.1.2)| = 1 := by
          rw [abs_pow, abs_neg, abs_one, one_pow]
        omega)
    simpa using hmap
  have hn : (0 : ℚ) < (l.length : ℚ) := by
    have : 0 < l.length := Nat.pos_of_ne_zero hl
    exact_mod_cast this
  have hcq : |(c : ℚ)| ≤ (l.length : ℚ) := by
    rw [← Int.cast_abs]
    exact_mod_cast habs
  have h2 : |2 * (c : ℚ) / (l.length : ℚ)| ≤ 2 := by
    rw [abs_div, abs_mul, abs_of_pos hn, div_le_iff₀ hn]
    calc |(2 : ℚ)| * |(c : ℚ)| = 2 * |(c : ℚ)| := by norm_num
      _ ≤ 2 * (l.length : ℚ) := by linarith
  linarith

/-- Claim C4: the correlation check can never report the channel as secure:
every qualifying trial contributes ±1 to the correlation sum, so the
aggregate `|2 * correlations / count|` is at most 2 and the `> 2.5` branch
is unreachable; with no qualifying trials the function returns `False`
explicitly.  Hence `verify_bell_inequality` is constantly `false`. -/
theorem c4_bell_check_always_false (alice_bits bob_bits alice_bases bob_bases : List ℕ) :
    verify_bell_inequality alice_bits bob_bits alice_bases bob_bases = false := by
  simp only [verify_bell_inequality]
  split
  · rfl
  · rename_i hc
    rw [decide_eq_false_iff_not]
    exact bell_aggregate_le_two _ hc

/-- Claim C1, counterexample: a match count of exactly 24 out of 64 — a
stated threshold boundary (the significant/critical boundary of spec §4.3)
— is classified by `eve_attack` into the critical bucket, the
higher-severity side, not the lower-severity significant bucket. -/
theorem c1_boundary_counterexample :
    classify_matches 24 = Verdict.critical ∧ Verdict.critical ≠ Verdict.significant := by
  constructor
  · decide
  · decide

/-- Claim C1 (amended): in the decision state machine's rate classification
every stated boundary resolves to the lower-severity bucket (16/64 safe,
23/64 significant, 32/64 critical — all via `<=` comparisons), and in the
`eve_attack` match-count classification the 16/64 boundary resolves to the
safe bucket (`detected_safe`); the match-count classifier's 24/64 and 32/64
boundaries, however, resolve to the higher-severity buckets (critical and
severe respectively). -/
theorem c1_boundary_buckets :
    classify_rate (16 / 64) = Verdict.safe ∧
    classify_rate (23 / 64) = Verdict.significant ∧
    classify_rate (32 / 64) = Verdict.critical ∧
    classify_matches 16 = Verdict.safe ∧
    classify_matches 24 = Verdict.critical ∧
    classify_matches 32 = Verdict.severe := by
  refine ⟨?_, ?_, ?_, ?_, ?_, ?_⟩ <;> simp only [classify_rate, classify_matches] <;> norm_num

theorem privacy_amplification_default_length (key_bits : List Bool) :
    (privacy_amplification key_bits none).length = min (max (key_bits.length / 2) 8) 256 := by
  simp only [privacy_amplification]
  rw [List.length_take, join_map_byteBits_length, sha256_length]

/-- Claim C6, counterexample: the output length does not always equal the
requested `final_length` — the SHA-256 digest supplies only 256 bits, so a
request of 300 bits is truncated to 256 (in Python,
`privacy_amplification([], 300)` returns 256 bits). -/
theorem c6_amplify_length_counterexample :
    (privacy_amplification [] (some 300)).length ≠ 300 := by
  rw [privacy_amplification_length [] 300 (by decide)]
  decide

/-- Claim C6 (amended): `privacy_amplification` is deterministic (the
embedding is a pure function of the input bits and requested length), and
its output length equals `min final_length 256` — which is the requested
`final_length` whenever that does not exceed the 256 digest bits; a
requested length of 0 falls back to the default
`max(len(agreed_bits) // 2, 8)`, as does an unspecified one, whose output
length is `min (max (len // 2) 8) 256`. -/
theorem c6_amplify_deterministic_length (k1 k2 : List Bool) (fl : ℕ)
    (h12 : k1 = k2) (hfl : fl ≠ 0) :
    privacy_amplification k1 (some fl) = privacy_amplification k2 (some fl) ∧
    (privacy_amplification k1 (some fl)).length = min fl 256 ∧
    (privacy_amplification k1 none).length = min (max (k1.length / 2) 8) 256 := by
  subst h12
  exact ⟨rfl, privacy_amplification_length k1 fl hfl,
    privacy_amplification_default_length k1⟩

theorem c6_amplify_deterministic_length_witness :
    privacy_amplification [true] (some 8) = privacy_amplification [true] (some 8) ∧
    (privacy_amplification [true] (some 8)).length = min 8 256 ∧
    (privacy_amplification [true] none).length = min (max (1 / 2) 8) 256 := by
  have h := c6_amplify_deterministic_length [true] [true] 8 rfl (by decide)
  simpa using h

/-- Claim C3, counterexample: on empty inputs the sampling variant does not
return 0.0 — the default sample size is 0 and `errors / sample_size` raises
`ZeroDivisionError` (modelled `none`), so the decision procedure is not
total on empty inputs through `estimate_error_rate`. -/
theorem c3_estimate_error_rate_empty_raises :
    estimate_error_rate [] [] none [] = none := by
  rfl

/-- Claim C3 (amended): the full-comparison variant `calculate_qber` does
return 0.0 on empty or length-mismatched inputs without raising; the
sampling variant `estimate_error_rate`, however, raises on empty `bits1`
for every possible sample draw (division by the zero default sample size),
and can raise `IndexError` on length-mismatched inputs when a sampled index
reaches past the shorter sequence — totality on such inputs holds only for
`calculate_qber`. -/
theorem c3_error_rate_on_degenerate_inputs :
    (∀ key1 key2 : List Bool,
      key1 = [] ∨ key2 = [] ∨ key1.length ≠ key2.length →
        calculate_qber key1 key2 = 0) ∧
    (∀ (bits2 : List Bool) (idx : List ℕ),
        estimate_error_rate [] bits2 none idx = none) ∧
    (∀ (bits1 bits2 : List Bool) (idx : List ℕ) (i : ℕ), i ∈ idx →
        bits2.length ≤ i →
        estimate_error_rate bits1 bits2 none idx = none) := by
  refine ⟨?_, ?_, ?_⟩
  · intro key1 key2 hdeg
    simp only [calculate_qber, if_pos hdeg]
  · intro bits2 idx
    simp only [estimate_error_rate, default_sample_size]
    norm_num
  · intro bits1 bits2 idx i hi hlen
    have hany : idx.any (fun j => bits2.length ≤ j) = true := by
      rw [List.any_eq_true]
      exact ⟨i, hi, by simpa using hlen⟩
    simp only [estimate_error_rate]
    rw [if_neg, if_pos hany]
    simp only [default_sample_size]
    omega

theorem c3_error_rate_on_degenerate_inputs_witness :
    calculate_qber [] [true] = 0 ∧
    estimate_error_rate [] [true] none [] = none ∧
    estimate_error_rate [true, false] [] none [0] = none := by
  refine ⟨c3_error_rate_on_degenerate_inputs.1 [] [true] (Or.inl rfl),
    c3_error_rate_on_degenerate_inputs.2.1 [true] [],
    c3_error_rate_on_degenerate_inputs.2.2 [true, false] [] [0] 0 ?_ ?_⟩
  · simp
  · simp

/-- Claim C9, counterexample: the default sample size is
`min(len // 4, 100)`, not `max(1, len // 4)` capped at 100 — for a
non-empty input of three bits the default is 0, and the rate computation
divides by zero (`estimate_error_rate` raises, modelled `none`). -/
theorem c9_default_sample_size_counterexample :
    default_sample_size [true, true, true] = 0 ∧
    estimate_error_rate [true, true, true] [true, true, true] none [] = none := by
  exact ⟨rfl, rfl⟩

/-- Claim C9 (amended): the unspecified-sample-size default is
`min(len // 4, 100)` with no lower clamp: for inputs of at least four bits
it is at least 1 and the rate computation's divisor is nonzero (a failure
can then only be an impossible draw or an out-of-range sampled index, never
the division), but for shorter non-empty inputs the default is 0 and the
division by the sample size raises. -/
theorem c9_default_sample_size (bits1 : List Bool) (h4 : 4 ≤ bits1.length) :
    default_sample_size bits1 = min (bits1.length / 4) 100 ∧
    1 ≤ default_sample_size bits1 ∧
    (∀ (bits2 : List Bool) (idx : List ℕ),
      estimate_error_rate bits1 bits2 none idx = none →
        bits1.length < default_sample_size bits1 ∨
          idx.any (fun i => bits2.length ≤ i) = true) ∧
    (∀ short : List Bool, short ≠ [] → short.length < 4 →
        default_sample_size short = 0 ∧
        ∀ idx, estimate_error_rate short short none idx = none) := by
  have hpos : 1 ≤ default_sample_size bits1 := by
    simp only [default_sample_size]
    omega
  refine ⟨rfl, hpos, ?_, ?_⟩
  · intro bits2 idx hnone
    by_contra hcon
    push_neg at hcon
    obtain ⟨hle, hidx⟩ := hcon
    simp only [estimate_error_rate] at hnone
    rw [if_neg, if_neg] at hnone
    · rw [if_neg] at hnone
      · exact absurd hnone (by simp)
      · omega
    · simp [hidx]
    · omega
  · intro short hne hshort
    have hz : default_sample_size short = 0 := by
      simp only [default_sample_size]
      omega
    refine ⟨hz, ?_⟩
    intro idx
    simp only [estimate_error_rate, hz]
    by_cases hany : idx.any (fun i => short.length ≤ i) = true
    · simp [hany]
    · simp [hany]

theorem c9_default_sample_size_witness :
    default_sample_size [true, true, true, true] =
        min ([true, true, true, true].length / 4) 100 ∧
    1 ≤ default_sample_size [true, true, true, true] ∧
    default_sample_size [true] = 0 := by
  have h := c9_default_sample_size [true, true, true, true] (by decide)
  exact ⟨h.1, h.2.1, (h.2.2.2 [true] (by decide) (by decide)).1⟩

theorem keyGenLoop_all_short (g : ℕ → List Bool) (hshort : ∀ j, (g j).length < 64) :
    ∀ fuel i, keyGenLoop g i fuel = none := by
  intro fuel
  induction fuel with
  | zero => intro i; rfl
  | succ n ih =>
      intro i
      simp only [keyGenLoop]
      rw [if_neg (by have := hshort i; omega)]
      exact ih (i + 1)

/-- Claim C7, counterexample: the regeneration loop has no finite bound —
with a generator whose every attempt is undersupplied (here: always the
empty agreed key), no number of loop iterations ever produces an outcome;
the `while True` loop of keydes.py lines 141-145 has no other exit and no
`ChannelUnstable` condition exists in the code. -/
theorem c7_regen_loop_unbounded_counterexample :
    ¬ ∃ fuel, (keyGenLoop (fun _ => []) 0 fuel).isSome = true := by
  rintro ⟨fuel, hsome⟩
  rw [keyGenLoop_all_short (fun _ => []) (by intro j; simp) fuel 0] at hsome
  simp at hsome

/-- Claim C7 (amended): the key-regeneration loop is open-ended: when it
terminates it returns the first generated agreed key with at least 64 bits,
truncated to exactly 64 bits, and when every generation attempt is
undersupplied it loops forever — the code has no finite retry bound and
surfaces no `ChannelUnstable` condition. -/
theorem c7_regen_loop_behaviour (g : ℕ → List Bool) (fuel i : ℕ) (k : List Bool)
    (hk : keyGenLoop g i fuel = some k) :
    (∃ j, i ≤ j ∧ 64 ≤ (g j).length ∧ k = (g j).take 64 ∧ k.length = 64 ∧
      ∀ m, i ≤ m → m < j → (g m).length < 64) ∧
    ((∀ j, (g j).length < 64) → ∀ fuel2 i2, keyGenLoop g i2 fuel2 = none) := by
  refine ⟨?_, keyGenLoop_all_short g⟩
  induction fuel generalizing i with
  | zero => exact absurd hk (by simp [keyGenLoop])
  | succ n ih =>
      simp only [keyGenLoop] at hk
      by_cases hlen : 64 ≤ (g i).length
      · rw [if_pos hlen] at hk
        refine ⟨i, le_refl i, hlen, ?_, ?_, ?_⟩
        · exact (Option.some_injective _ hk).symm
        · have := (Option.some_injective _ hk).symm
          subst this
          simp [List.length_take]
          omega
        · intro m him hmi
          omega
      · rw [if_neg hlen] at hk
        obtain ⟨j, hij, hjlen, hkj, hk64, hmin⟩ := ih (i + 1) hk
        refine ⟨j, by omega, hjlen, hkj, hk64, ?_⟩
        intro m him hmj
        by_cases hmi : m = i
        · subst hmi; omega
        · exact hmin m (by omega) hmj

theorem c7_regen_loop_behaviour_witness :
    ∃ j, 0 ≤ j ∧ 64 ≤ ((fun _ => List.replicate 70 true) j : List Bool).length ∧
      (List.replicate 70 true).take 64 = ((fun _ => List.replicate 70 true) j : List Bool).take 64 ∧
      ((List.replicate 70 true).take 64).length = 64 ∧
      ∀ m, 0 ≤ m → m < j → ((fun _ => List.replicate 70 true) m : List Bool).length < 64 := by
  have h := c7_regen_loop_behaviour (fun _ => List.replicate 70 true) 1 0
    ((List.replicate 70 true).take 64) (by rfl)
  exact h.1

theorem ite_pow_two (c : Prop) [Decidable c] (k : ℕ) :
    (if c then 2 ^ k else 0) = 2 ^ k * (if c then 1 else 0) := by
  by_cases h : c <;> simp [h]

theorem pack64_byte_eq (bits : List Bool) (i : ℕ) :
    (List.range 8).foldl
        (fun byte j => 2 * byte + (if bits.getD (8 * i + j) false then 1 else 0)) 0
      = ∑ j ∈ Finset.range 8, (if bits.getD (8 * i + j) false then 2 ^ (7 - j) else 0) := by
  have hr : List.range 8 = [0, 1, 2, 3, 4, 5, 6, 7] := by rfl
  rw [hr]
  simp only [List.foldl_cons, List.foldl_nil, Finset.sum_range_succ,
    Finset.sum_range_zero, ite_pow_two]
  ring

theorem optimized_key_eq_spec (bits : List Bool) :
    optimized_des_key bits = spec_derive_cipher_key bits := by
  simp only [optimized_des_key, spec_derive_cipher_key, pack64]
  exact List.map_congr_left
    (fun i _ => pack64_byte_eq (bits ++ List.replicate (64 - bits.length) false) i)

theorem optimized_des_key_of_len64 (bits : List Bool) (h : 64 ≤ bits.length) :
    optimized_des_key bits = pack64 bits := by
  simp only [optimized_des_key]
  rw [Nat.sub_eq_zero_of_le h]
  simp

/-- Claim C8, counterexample: the bits-to-DES-key conversion of keydes.py
(`QuantumDES._bits_to_bytes`, one of the two conversions the claim covers)
does fail on fewer than 64 bits — a 32-bit source raises `ValueError`
(modelled `none`) instead of zero-padding. -/
theorem c8_bits_to_bytes_short_raises :
    bits_to_bytes (List.replicate 32 true) = none := by
  rfl

/-- Claim C8 (amended): the `OptimizedQuantumDES` conversion pads a short
source with zero bits on the right up to 64 and packs the first 64 bits
into 8 bytes most-significant-bit first (proved against the spec-side
packing definition); `QuantumDES._bits_to_bytes`, however, raises
`ValueError` on any source of fewer than 64 bits, and for sources of at
least 64 bits both conversions agree, packing exactly the first 64 bits. -/
theorem c8_derive_cipher_key (bits : List Bool) (hlong : 64 ≤ bits.length) :
    (∀ src : List Bool, optimized_des_key src = spec_derive_cipher_key src) ∧
    (∀ short : List Bool, short.length < 64 → bits_to_bytes short = none) ∧
    bits_to_bytes bits = some (optimized_des_key bits) := by
  refine ⟨optimized_key_eq_spec, ?_, ?_⟩
  · intro short hshort
    simp only [bits_to_bytes]
    rw [if_pos hshort]
  · simp only [bits_to_bytes]
    rw [if_neg (by omega), optimized_des_key_of_len64 bits hlong]

theorem c8_derive_cipher_key_witness :
    optimized_des_key [true] = spec_derive_cipher_key [true] ∧
    bits_to_bytes [true] = none ∧
    bits_to_bytes (List.replicate 64 true) =
      some (optimized_des_key (List.replicate 64 true)) := by
  have h := c8_derive_cipher_key (List.replicate 64 true) (by simp)
  exact ⟨h.1 [true], h.2.1 [true] (by simp), h.2.2⟩

theorem overwriteBits_length (current attempt : List Bool) (positions : List ℕ) :
    (overwriteBits current attempt positions).length = attempt.length := by
  induction positions generalizing attempt with
  | nil => rfl
  | cons p rest ih =>
      simp only [overwriteBits, List.foldl_cons] at ih ⊢
      rw [ih]
      simp

theorem generate_quantum_key_length (n : ℕ) (mO : ℕ → Bool) :
    (generate_quantum_key n mO).length = n := by
  simp [generate_quantum_key]

/-- Claim C2: in the adversary simulation with both keys initialized, the
classic branch answers `cracked` exactly when the post-overwrite agreement
exceeds 48 of 64 bits (and `progress` otherwise); the quantum branch with
at least 24 matches answers `detected_reinit`, carries a freshly generated
64-bit quantum key in the response and commits it to the cache, and with at
most 16 matches answers `detected_safe`, leaving the cached quantum key
unchanged and carrying no new key. -/
theorem c2_eve_attack_statuses :
    (∀ (s : Cache) (attemptO mO : ℕ → Bool) (positions : List ℕ) (ck ek : List Bool),
      s.classic = some ck → s.eve = some ek → ck ≠ [] → ek ≠ [] →
      ∃ r s2, eve_attack s .classic attemptO positions mO = some (r, s2) ∧
        (r.status = .cracked ↔
          48 < countMatches ck (overwriteBits ck ((List.range 64).map attemptO) positions)) ∧
        (r.status ≠ .cracked → r.status = .progress)) ∧
    (∀ (s : Cache) (attemptO mO : ℕ → Bool) (positions : List ℕ) (qk ek : List Bool),
      s.quantum = some qk → s.eve = some ek → qk ≠ [] → ek ≠ [] →
      ∃ r s2, eve_attack s .quantum attemptO positions mO = some (r, s2) ∧
        (24 ≤ countMatches qk ((List.range 64).map attemptO) →
          r.status = .detected_reinit ∧
          r.new_quantum_key = some (generate_quantum_key 64 mO) ∧
          (generate_quantum_key 64 mO).length = 64 ∧
          s2.quantum = some (generate_quantum_key 64 mO)) ∧
        (countMatches qk ((List.range 64).map attemptO) ≤ 16 →
          r.status = .detected_safe ∧ r.new_quantum_key = none ∧
          s2.quantum = s.quantum)) := by
  constructor
  · intro s attemptO mO positions ck ek hck hek hckne hekne
    simp only [eve_attack, Cache.getKey, hck, hek]
    rw [if_neg (by simp [hckne, hekne])]
    by_cases hm : 48 < countMatches ck (overwriteBits ck ((List.range 64).map attemptO) positions)
    · rw [if_pos hm]
      exact ⟨_, _, rfl, by simp [hm], by intro h; exact absurd rfl h⟩
    · rw [if_neg hm]
      refine ⟨_, _, rfl, ?_, fun _ => rfl⟩
      constructor
      · intro h; exact absurd h (by simp)
      · intro h; exact absurd h hm
  · intro s attemptO mO positions qk ek hqk hek hqkne hekne
    simp only [eve_attack, Cache.getKey, hqk, hek]
    rw [if_neg (by simp [hqkne, hekne])]
    by_cases hm : countMatches qk ((List.range 64).map attemptO) ≤ 16
    · rw [if_pos hm]
      refine ⟨_, _, rfl, ?_, ?_⟩
      · intro h24; omega
      · intro _; exact ⟨rfl, rfl, rfl⟩
    · rw [if_neg hm]
      refine ⟨_, _, rfl, ?_, ?_⟩
      · intro _
        exact ⟨rfl, rfl, generate_quantum_key_length 64 mO, rfl⟩
      · intro h16; omega

theorem c2_eve_attack_statuses_witness :
    (∃ r s2, eve_attack
        (Cache.mk (some (List.replicate 64 true)) (some (List.replicate 64 true))
          (some (List.replicate 64 true)))
        .classic (fun _ => true) [] (fun _ => false) = some (r, s2) ∧
      (r.status = .cracked ↔
        48 < countMatches (List.replicate 64 true)
          (overwriteBits (List.replicate 64 true)
            ((List.range 64).map (fun _ => true)) [])) ∧
      (r.status ≠ .cracked → r.status = .progress)) ∧
    (∃ r s2, eve_attack
        (Cache.mk (some (List.replicate 64 true)) (some (List.replicate 64 true))
          (some (List.replicate 64 true)))
        .quantum (fun _ => true) [] (fun _ => false) = some (r, s2) ∧
      (24 ≤ countMatches (List.replicate 64 true) ((List.range 64).map (fun _ => true)) →
        r.status = .detected_reinit ∧
        r.new_quantum_key = some (generate_quantum_key 64 (fun _ => false)) ∧
        (generate_quantum_key 64 (fun _ => false)).length = 64 ∧
        s2.quantum = some (generate_quantum_key 64 (fun _ => false))) ∧
      (countMatches (List.replicate 64 true) ((List.range 64).map (fun _ => true)) ≤ 16 →
        r.status = .detected_safe ∧ r.new_quantum_key = none ∧
        s2.quantum = (Cache.mk (some (List.replicate 64 true))
          (some (List.replicate 64 true)) (some (List.replicate 64 true))).quantum)) := by
  constructor
  · exact c2_eve_attack_statuses.1 _ (fun _ => true) (fun _ => false) []
      (List.replicate 64 true) (List.replicate 64 true) rfl rfl (by simp) (by simp)
  · exact c2_eve_attack_statuses.2 _ (fun _ => true) (fun _ => false) []
      (List.replicate 64 true) (List.replicate 64 true) rfl rfl (by simp) (by simp)

theorem eve_attack_state (s : Cache) (kt : KeyType) (attemptO : ℕ → Bool)
    (positions : List ℕ) (mO : ℕ → Bool) (r : EveResp) (s2 : Cache)
    (h : eve_attack s kt attemptO positions mO = some (r, s2)) :
    s2.classic = s.classic ∧
    (s2.quantum = s.quantum ∨ s2.quantum = some (generate_quantum_key 64 mO)) ∧
    (s2.eve = s.getKey kt ∨ ∃ k, s2.eve = some k ∧ k.length = 64) := by
  cases kt with
  | classic =>
      cases hgc : s.classic with
      | none => rw [eve_attack] at h; simp [Cache.getKey, hgc] at h
      | some ck =>
        cases hge : s.eve with
        | none => rw [eve_attack] at h; simp [Cache.getKey, hgc, hge] at h
        | some ek =>
          simp only [eve_attack, Cache.getKey, hgc, hge] at h
          by_cases hemp : ck = [] ∨ ek = []
          · rw [if_pos hemp] at h; exact absurd h (by simp)
          · rw [if_neg hemp] at h
            by_cases hm : 48 < countMatches ck
                (overwriteBits ck ((List.range 64).map attemptO) positions)
            · rw [if_pos hm] at h
              obtain ⟨-, h2⟩ := Prod.mk.injEq .. ▸ Option.some_injective _ h
              subst h2
              exact ⟨rfl, Or.inl rfl, Or.inl (by simp [Cache.getKey, hgc])⟩
            · rw [if_neg hm] at h
              obtain ⟨-, h2⟩ := Prod.mk.injEq .. ▸ Option.some_injective _ h
              subst h2
              refine ⟨rfl, Or.inl rfl, Or.inr ⟨_, rfl, ?_⟩⟩
              rw [overwriteBits_length]
              simp
  | quantum =>
      cases hgq : s.quantum with
      | none => rw [eve_attack] at h; simp [Cache.getKey, hgq] at h
      | some qk =>
        cases hge : s.eve with
        | none => rw [eve_attack] at h; simp [Cache.getKey, hgq, hge] at h
        | some ek =>
          simp only [eve_attack, Cache.getKey, hgq, hge] at h
          by_cases hemp : qk = [] ∨ ek = []
          · rw [if_pos hemp] at h; exact absurd h (by simp)
          · rw [if_neg hemp] at h
            by_cases hm : countMatches qk ((List.range 64).map attemptO) ≤ 16
            · rw [if_pos hm] at h
              obtain ⟨-, h2⟩ := Prod.mk.injEq .. ▸ Option.some_injective _ h
              subst h2
              exact ⟨rfl, Or.inl rfl, Or.inr ⟨_, rfl, by simp⟩⟩
            · rw [if_neg hm] at h
              obtain ⟨-, h2⟩ := Prod.mk.injEq .. ▸ Option.some_injective _ h
              subst h2
              exact ⟨rfl, Or.inr rfl, Or.inr ⟨_, rfl, by simp⟩⟩

theorem serverStep_preserves (s : Cache) (op : ServerOp) (hs : KeyInvariant s) :
    KeyInvariant (serverStep s op) := by
  obtain ⟨hsc, hsq, hse⟩ := hs
  cases op with
  | opInit cO qO eO =>
      refine ⟨fun k hk => ?_, fun k hk => ?_, fun k hk => ?_⟩ <;>
      · simp only [serverStep, init_keys, generate_quantum_key] at hk
        cases hk
        simp
  | opEncrypt => exact ⟨hsc, hsq, hse⟩
  | opDecrypt => exact ⟨hsc, hsq, hse⟩
  | opClear =>
      refine ⟨fun k hk => ?_, fun k hk => ?_, fun k hk => ?_⟩ <;>
        simp [serverStep, Cache.start] at hk
  | opEve kt attemptO positions mO =>
      simp only [serverStep]
      cases heq : eve_attack s kt attemptO positions mO with
      | none => exact ⟨hsc, hsq, hse⟩
      | some rs =>
          obtain ⟨r, s2⟩ := rs
          obtain ⟨h1, h2, h3⟩ := eve_attack_state s kt attemptO positions mO r s2 heq
          refine ⟨fun k hk => ?_, fun k hk => ?_, fun k hk => ?_⟩
          · rw [h1] at hk; exact hsc k hk
          · rcases h2 with h2 | h2
            · rw [h2] at hk; exact hsq k hk
            · rw [h2] at hk; cases hk; simp [generate_quantum_key]
          · rcases h3 with h3 | ⟨k2, hk2, hl2⟩
            · rw [h3] at hk
              cases kt with
              | classic => exact hsc k hk
              | quantum => exact hsq k hk
            · rw [hk2] at hk; cases hk; exact hl2

theorem serverRun_foldl_invariant (ops : List ServerOp) (s : Cache)
    (hs : KeyInvariant s) : KeyInvariant (ops.foldl serverStep s) := by
  induction ops generalizing s with
  | nil => exact hs
  | cons op rest ih => exact ih (serverStep s op) (serverStep_preserves s op hs)

/-- Claim C10: after any sequence of the public operations (init_keys,
eve_attack, encrypt, decrypt, clear) starting from the fresh cache, every
role's entry in the cache's keys mapping (classic, quantum, eve) is either
`None` or a bit sequence of exactly 64 bits. -/
theorem c10_cache_key_length_invariant (ops : List ServerOp) :
    KeyInvariant (serverRun ops) := by
  refine serverRun_foldl_invariant ops Cache.start
    ⟨fun k hk => ?_, fun k hk => ?_, fun k hk => ?_⟩ <;>
      simp [Cache.start] at hk

theorem b64index_b64char (n : ℕ) (hn : n < 64) : b64index (b64char n) = n := by
  revert hn
  revert n
  decide

theorem b64char_ne_61 (n : ℕ) (hn : n < 64) : b64char n ≠ 61 := by
  revert hn
  revert n
  decide

theorem b64_roundtrip : ∀ l : List ℕ, (∀ x ∈ l, x < 256) →
    b64decode (b64encode l) = l
  | [], _ => rfl
  | [a], h => by
      have ha : a < 256 := h a (by simp)
      simp only [b64encode, b64decode, if_pos rfl, if_true]
      rw [b64index_b64char (a / 4) (by omega), b64index_b64char (a % 4 * 16) (by omega)]
      simp only [List.cons.injEq, and_true]
      omega
  | [a, b], h => by
      have ha : a < 256 := h a (by simp)
      have hb : b < 256 := h b (by simp)
      simp only [b64encode, b64decode, if_pos rfl, if_true]
      rw [if_neg (b64char_ne_61 (b % 16 * 4) (by omega))]
      rw [b64index_b64char (a / 4) (by omega),
        b64index_b64char (a % 4 * 16 + b / 16) (by omega),
        b64index_b64char (b % 16 * 4) (by omega)]
      simp only [List.cons.injEq, and_true]
      omega
  | a :: b :: c :: rest, h => by
      have ha : a < 256 := h a (by simp)
      have hb : b < 256 := h b (by simp)
      have hc : c < 256 := h c (by simp)
      have htail := b64_roundtrip rest (fun x hx => h x (by simp [hx]))
      simp only [b64encode, b64decode]
      rw [if_neg (b64char_ne_61 (c % 64) (by omega))]
      rw [b64index_b64char (a / 4) (by omega),
        b64index_b64char (a % 4 * 16 + b / 16) (by omega),
        b64index_b64char (b % 16 * 4 + c / 64) (by omega),
        b64index_b64char (c % 64) (by omega), htail]
      simp only [List.cons.injEq, and_true]
      refine ⟨?_, ?_, ?_⟩ <;> omega

theorem getLast?_append_replicate (l : List ℕ) (p : ℕ) (hp : 0 < p) :
    (l ++ List.replicate p p).getLast? = some p := by
  cases p with
  | zero => omega
  | succ q =>
      rw [List.replicate_succ', ← List.append_assoc, List.getLast?_concat]

theorem getLastD_append_replicate (l : List ℕ) (p : ℕ) (hp : 0 < p) :
    (l ++ List.replicate p p).getLastD 0 = p := by
  rw [List.getLastD_eq_getLast?, getLast?_append_replicate l p hp]
  rfl

theorem pkcs7_roundtrip (m : List ℕ) : pkcs7unpad (pkcs7pad m) = some m := by
  have hmod : m.length % 8 < 8 := Nat.mod_lt _ (by norm_num)
  simp only [pkcs7pad, pkcs7unpad]
  rw [getLastD_append_replicate m (8 - m.length % 8) (by omega)]
  rw [if_pos]
  · rw [List.length_append, List.length_replicate,
      show m.length + (8 - m.length % 8) - (8 - m.length % 8) = m.length from by omega,
      List.take_left]
  · refine ⟨by omega, by omega, ?_, ?_⟩
    · rw [List.length_append, List.length_replicate]
      omega
    · rw [List.length_append, List.length_replicate,
        show m.length + (8 - m.length % 8) - (8 - m.length % 8) = m.length from by omega,
        List.drop_left]

theorem pkcs7pad_length_dvd (m : List ℕ) : 8 ∣ (pkcs7pad m).length := by
  simp only [pkcs7pad, List.length_append, List.length_replicate]
  omega

theorem pkcs7pad_mem_lt (m : List ℕ) (hm : ∀ x ∈ m, x < 256) :
    ∀ x ∈ pkcs7pad m, x < 256 := by
  intro x hx
  simp only [pkcs7pad, List.mem_append] at hx
  rcases hx with hx | hx
  · exact hm x hx
  · have hx2 := List.eq_of_mem_replicate hx
    subst hx2
    have : m.length % 8 < 8 := Nat.mod_lt _ (by norm_num)
    omega

theorem ecb_cons (f : List ℕ → List ℕ) (x : ℕ) (rest : List ℕ) :
    ecb f (x :: rest) = f ((x :: rest).take 8) ++ ecb f ((x :: rest).drop 8) := by
  rw [ecb]

theorem ecb_block (f : List ℕ → List ℕ) (blk rest : List ℕ) (hb : blk.length = 8) :
    ecb f (blk ++ rest) = f blk ++ ecb f rest := by
  obtain ⟨y, t, hyt⟩ : ∃ y t, blk ++ rest = y :: t := by
    cases hblk : blk with
    | nil => rw [hblk] at hb; simp at hb
    | cons y t => exact ⟨y, t ++ rest, by simp [hblk]⟩
  rw [hyt, ecb_cons, ← hyt, show (8 : ℕ) = blk.length from hb.symm,
    List.take_left, List.drop_left]

theorem ecb_roundtrip (enc dec : List ℕ → List ℕ)
    (hlen : ∀ blk, blk.length = 8 → (enc blk).length = 8)
    (hinv : ∀ blk, blk.length = 8 → dec (enc blk) = blk) :
    ∀ l : List ℕ, 8 ∣ l.length → ecb dec (ecb enc l) = l
  | [], _ => by rw [ecb, ecb]
  | x :: rest, hdvd => by
      have hlen8 : 8 ≤ (x :: rest).length := by
        rcases hdvd with ⟨c, hc⟩
        simp only [List.length_cons] at hc ⊢
        omega
      have htk : ((x :: rest).take 8).length = 8 := by
        rw [List.length_take]
        omega
      have hdvd2 : 8 ∣ ((x :: rest).drop 8).length := by
        rcases hdvd with ⟨c, hc⟩
        rw [List.length_drop]
        exact ⟨c - 1, by omega⟩
      calc ecb dec (ecb enc (x :: rest))
          = ecb dec (ecb enc ((x :: rest).take 8 ++ (x :: rest).drop 8)) := by
            rw [List.take_append_drop]
        _ = ecb dec (enc ((x :: rest).take 8) ++ ecb enc ((x :: rest).drop 8)) := by
            rw [ecb_block enc _ _ htk]
        _ = dec (enc ((x :: rest).take 8)) ++ ecb dec (ecb enc ((x :: rest).drop 8)) := by
            rw [ecb_block dec _ _ (hlen _ htk)]
        _ = (x :: rest).take 8 ++ (x :: rest).drop 8 := by
            rw [hinv _ htk, ecb_roundtrip enc dec hlen hinv ((x :: rest).drop 8) hdvd2]
        _ = x :: rest := List.take_append_drop 8 (x :: rest)
termination_by l _ => l.length
decreasing_by simp; omega

theorem ecb_mem_lt (enc : List ℕ → List ℕ)
    (hb : ∀ blk, blk.length = 8 → (∀ x ∈ blk, x < 256) → ∀ x ∈ enc blk, x < 256) :
    ∀ l : List ℕ, (∀ x ∈ l, x < 256) → 8 ∣ l.length → ∀ x ∈ ecb enc l, x < 256
  | [], _, _ => by rw [ecb]; simp
  | x :: rest, hlt, hdvd => by
      have hlen8 : 8 ≤ (x :: rest).length := by
        rcases hdvd with ⟨c, hc⟩
        simp only [List.length_cons] at hc ⊢
        omega
      have htk : ((x :: rest).take 8).length = 8 := by
        rw [List.length_take]
        omega
      have hdvd2 : 8 ∣ ((x :: rest).drop 8).length := by
        rcases hdvd with ⟨c, hc⟩
        rw [List.length_drop]
        exact ⟨c - 1, by omega⟩
      intro y hy
      rw [ecb_cons] at hy
      rcases List.mem_append.mp hy with hy | hy
      · exact hb _ htk (fun z hz => hlt z (List.take_subset 8 (x :: rest) hz)) y hy
      · exact ecb_mem_lt enc hb ((x :: rest).drop 8)
          (fun z hz => hlt z (List.drop_subset 8 (x :: rest) hz)) hdvd2 y hy
termination_by l _ _ => l.length
decreasing_by simp; omega

theorem des_roundtrip (desE desD : List ℕ → List ℕ)
    (hlen : ∀ blk, blk.length = 8 → (desE blk).length = 8)
    (hb : ∀ blk, blk.length = 8 → (∀ x ∈ blk, x < 256) → ∀ x ∈ desE blk, x < 256)
    (hinv : ∀ blk, blk.length = 8 → desD (desE blk) = blk)
    (msg : List ℕ) (hmsg : ∀ x ∈ msg, x < 256) :
    des_decrypt desD (des_encrypt desE msg) = some msg := by
  unfold des_encrypt des_decrypt
  rw [b64_roundtrip _ (ecb_mem_lt desE hb _ (pkcs7pad_mem_lt msg hmsg)
      (pkcs7pad_length_dvd msg))]
  rw [ecb_roundtrip desE desD hlen hinv _ (pkcs7pad_length_dvd msg)]
  exact pkcs7_roundtrip msg

/-- Claim C5: for every 64-bit key and printable-ASCII message,
decrypting the encryption of the message under the same key returns the
original message, in both the `QuantumDES` and `OptimizedQuantumDES`
adapters: padding to the DES block size, ECB encryption, base64 transport
encoding, base64 decoding, ECB decryption and padding removal compose to
the identity.  The external DES primitive (pycryptodome) enters through
`desE`/`desD`, assumed — as a block cipher — to be a length- and
byte-range-preserving pair of mutually inverse maps on 8-byte blocks under
the derived key; both adapters derive the same key bytes from a 64-bit
key. -/
theorem c5_des_round_trip (desE desD : List ℕ → List ℕ → List ℕ)
    (key_bits : List Bool) (message : List ℕ) (hkey : key_bits.length = 64)
    (hmsg : ∀ x ∈ message, x < 128)
    (hlen : ∀ blk, blk.length = 8 → (desE (optimized_des_key key_bits) blk).length = 8)
    (hbound : ∀ blk, blk.length = 8 → (∀ x ∈ blk, x < 256) →
        ∀ x ∈ desE (optimized_des_key key_bits) blk, x < 256)
    (hinv : ∀ blk, blk.length = 8 →
        desD (optimized_des_key key_bits) (desE (optimized_des_key key_bits) blk) = blk) :
    optimizedQuantumDES_decrypt desD key_bits
        (optimizedQuantumDES_encrypt desE key_bits message) = some message ∧
    quantumDES_encrypt desE key_bits message =
        some (optimizedQuantumDES_encrypt desE key_bits message) ∧
    quantumDES_decrypt desD key_bits
        (optimizedQuantumDES_encrypt desE key_bits message) = some message := by
  have hmsg256 : ∀ x ∈ message, x < 256 := fun x hx => lt_trans (hmsg x hx) (by norm_num)
  have hcore := des_roundtrip (desE (optimized_des_key key_bits))
    (desD (optimized_des_key key_bits)) hlen hbound hinv message hmsg256
  have hbk : bits_to_bytes key_bits = some (optimized_des_key key_bits) := by
    simp only [bits_to_bytes]
    rw [if_neg (by omega), optimized_des_key_of_len64 key_bits (by omega)]
  refine ⟨hcore, ?_, ?_⟩
  · simp [quantumDES_encrypt, hbk, optimizedQuantumDES_encrypt]
  · simp only [quantumDES_decrypt, hbk, Option.bind_some]
    exact hcore

theorem c5_des_round_trip_witness :
    optimizedQuantumDES_decrypt (fun _ blk => blk) (List.replicate 64 false)
        (optimizedQuantumDES_encrypt (fun _ blk => blk) (List.replicate 64 false)
          [72, 105]) = some [72, 105] ∧
    quantumDES_encrypt (fun _ blk => blk) (List.replicate 64 false) [72, 105] =
        some (optimizedQuantumDES_encrypt (fun _ blk => blk) (List.replicate 64 false)
          [72, 105]) ∧
    quantumDES_decrypt (fun _ blk => blk) (List.replicate 64 false)
        (optimizedQuantumDES_encrypt (fun _ blk => blk) (List.replicate 64 false)
          [72, 105]) = some [72, 105] := by
  exact c5_des_round_trip (fun _ blk => blk) (fun _ blk => blk)
    (List.replicate 64 false) [72, 105] (by simp) (by decide)
    (fun blk h => h) (fun blk _ h => h) (fun blk _ => rfl)
